import Mathlib

/-!
Shallow embedding of the yggdrasil-cpp-genkeys core algorithms:
address derivation (`AddrForKey`), scoring (`LeadingZeroBits`,
`AddressZeroBlocks`), candidate comparison (`Candidate.IsBetter`),
seed increment (`seedIncrement`), hex encode/decode, IPv6 address
rendering (`IPv6ToString`) and the coordinator update step
(`coordStep`).  Bytes are modelled as `Nat` values with explicit
`% 2^8` / `% 2^16` wrapping where the C++ uses fixed-width machine
integers; byte buffers are `List Nat`.
-/

namespace Ygg

/-- Bitwise NOT of a `uint8_t` value: `~b` truncated to 8 bits
(`inverted[i] = ~public_key.bytes[i]`). -/
def invByte (b : Nat) : Nat := 255 - b % 256

/-- MSB-first bit extraction used by `AddrForKey`:
`(bytes[idx / 8] & (0x80 >> (idx % 8))) >> (7 - (idx % 8))`. -/
def bitAt (bytes : List Nat) (idx : Nat) : Nat :=
  if (bytes.getD (idx / 8) 0).testBit (7 - idx % 8) then 1 else 0

/-- The loop state of `AddrForKey`: the `done` flag, the `ones`
counter (a `uint8_t`), the byte accumulator `bits` (a `uint8_t`),
the accumulated-bit count `n_bits`, the collected tail bytes `temp`,
and a flag recording that the internal check
`assert(ones <= 127)` held whenever it was evaluated. -/
structure AddrState where
  done : Bool
  ones : Nat
  bits : Nat
  n_bits : Nat
  temp : List Nat
  assertOk : Bool
  deriving Repr, DecidableEq

/-- One iteration of the bit-processing loop of `AddrForKey`. -/
def addrStep (s : AddrState) (bit : Nat) : AddrState :=
  if !s.done && bit != 0 then
    { s with ones := (s.ones + 1) % 256 }
  else if !s.done then
    { s with done := true, assertOk := s.assertOk && decide (s.ones ≤ 127) }
  else
    let bits := (s.bits * 2 + bit) % 256
    let n_bits := s.n_bits + 1
    if n_bits == 8 then
      { s with bits := 0, n_bits := 0, temp := s.temp ++ [bits] }
    else
      { s with bits := bits, n_bits := n_bits }

/-- Initial loop state of `AddrForKey`. -/
def addrInit : AddrState := ⟨false, 0, 0, 0, [], true⟩

/-- The MSB-first bitstream of the inverted public key, as scanned by
the loop `for (idx = 0; idx < 8 * inverted.size(); ++idx)`. -/
def invBits (public_key : List Nat) : List Nat :=
  (List.range (8 * public_key.length)).map
    (fun idx => bitAt (public_key.map invByte) idx)

/-- The state after the whole bit-processing loop of `AddrForKey`. -/
def addrFold (public_key : List Nat) : AddrState :=
  (invBits public_key).foldl addrStep addrInit

/-- `AddrForKey`: derives the 16-byte Yggdrasil address from a public
key.  Byte 0 is the prefix `0x02`, byte 1 the `ones` count, bytes
2..15 receive `min(temp.size(), 14)` tail bytes over a zero-initialized
buffer. -/
def AddrForKey (public_key : List Nat) : List Nat :=
  let fin := addrFold public_key
  let copied := fin.temp.take 14
  2 :: fin.ones :: (copied ++ List.replicate (14 - copied.length) 0)

/-- The MSB-first bits of one byte. -/
def byteBits8 (b : Nat) : List Nat :=
  (List.range 8).map (fun j => if b.testBit (7 - j) then 1 else 0)

/-- The concatenated MSB-first bitstream of a byte list. -/
def bytesBits : List Nat → List Nat
  | [] => []
  | b :: rest => byteBits8 b ++ bytesBits rest

/-- MSB-first packing of a bitstream into bytes, given a partial
accumulator `b` holding `n` bits; a trailing partial byte is
discarded. -/
def packAux (b n : Nat) : List Nat → List Nat
  | [] => []
  | bit :: rest =>
    if n + 1 = 8 then (b * 2 + bit) :: packAux 0 0 rest
    else packAux (b * 2 + bit) (n + 1) rest

/-- Whether a bit value is a 1-bit. -/
def isOne (x : Nat) : Bool := x == 1

/-- Spec-side address derivation, stated as the specification words
it: invert the key, count the consecutive leading 1-bits of the
inverted bitstream, skip the first 0-bit, pack all remaining bits
MSB-first into bytes, and lay out `0x02`, the ones count, and the
first 14 tail bytes (zero-padded if fewer). -/
def specAddrForKey (pk : List Nat) : List Nat :=
  let ib := invBits pk
  let onesCount := (ib.takeWhile isOne).length
  let tailBytes := packAux 0 0 (ib.drop (onesCount + 1))
  let copied := tailBytes.take 14
  2 :: onesCount :: (copied ++ List.replicate (14 - copied.length) 0)

/-- Lowercase hex rendering of one 16-bit group, as produced by
`std::format("{:x}", group)`: minimal-width lowercase hexadecimal. -/
def natToHexStr (n : Nat) : String := ⟨Nat.toDigits 16 n⟩

/-- `IPv6_Addr::ToString`: folds over the 16 bytes accumulating 16-bit
groups (`group = group * 256 + byte` on a `uint16_t`) and appends each
completed group in `{:x}` format, separated by colons. -/
def IPv6ToString (bytes : List Nat) : String :=
  (bytes.foldl
    (fun (acc : String × Nat × Nat) byte =>
      let counter := acc.2.1 + 1
      let group := (acc.2.2 * 256 + byte) % 65536
      if counter % 2 == 0 then
        (acc.1 ++ (if counter > 2 then ":" else "") ++ natToHexStr group,
         (counter, 0))
      else
        (acc.1, (counter, group)))
    ("", (0, 0))).1

/-- `std::countl_zero` on a `uint8_t`: the number of leading zero bits
in the 8-bit representation. -/
def clz8 (b : Nat) : Nat :=
  let v := b % 256
  if v ≥ 128 then 0
  else if v ≥ 64 then 1
  else if v ≥ 32 then 2
  else if v ≥ 16 then 3
  else if v ≥ 8 then 4
  else if v ≥ 4 then 5
  else if v ≥ 2 then 6
  else if v ≥ 1 then 7
  else 8

/-- `LeadingZeroBits`: sums `countl_zero` over the key bytes, stopping
after the first byte that is not entirely zero. -/
def LeadingZeroBits : List Nat → Nat
  | [] => 0
  | b :: rest =>
    let bits := clz8 b
    if bits = 8 then 8 + LeadingZeroBits rest else bits

/-- `AddressZeroBlocks`: scans 16-bit groups 1..7 of the address
(bytes `2*i`, `2*i+1`), tracking the current and maximal run of
consecutive all-zero groups. -/
def AddressZeroBlocks (bytes : List Nat) : Nat :=
  ((List.range' 1 7).foldl
    (fun (acc : Nat × Nat) i =>
      if bytes.getD (2 * i) 0 = 0 ∧ bytes.getD (2 * i + 1) 0 = 0 then
        (max acc.1 (acc.2 + 1), acc.2 + 1)
      else
        (acc.1, 0))
    (0, 0)).1

/-- `Seed_t::operator++` body: the loop `for (i = Size; i-- > 0;)`,
incrementing the last non-`0xFF` byte and zeroing the bytes after it. -/
def seedIncFrom : List Nat → Nat → List Nat
  | bs, 0 => bs
  | bs, i + 1 =>
    if bs.getD i 0 ≠ 255 then bs.set i (bs.getD i 0 + 1)
    else seedIncFrom (bs.set i 0) i

/-- `Seed_t::operator++`: big-endian increment over all bytes. -/
def seedIncrement (bs : List Nat) : List Nat := seedIncFrom bs bs.length

/-- The byte list read as a big-endian unsigned integer. -/
def valueBE (bs : List Nat) : Nat := bs.foldl (fun acc b => acc * 256 + b) 0

/-- The `hex_chars` table of `BytesToHex`, as character codes. -/
def hexCharsTable : List Nat :=
  [48, 49, 50, 51, 52, 53, 54, 55, 56, 57, 97, 98, 99, 100, 101, 102]

/-- `BytesToHex`: two table-lookup characters (`byte >> 4`,
`byte & 0x0F`) per byte; characters are modelled by their codes. -/
def BytesToHex : List Nat → List Nat
  | [] => []
  | b :: rest =>
    hexCharsTable.getD (b / 16) 0 :: hexCharsTable.getD (b % 16) 0 ::
      BytesToHex rest

/-- `HexToBytes<SIZE>`: each output byte `i` decodes characters
`2*i` and `2*i+1` if present (`c >= 'a' ? c - 'a' + 10 : c - '0'`),
and is `0` otherwise. -/
def HexToBytes (SIZE : Nat) (hex : List Nat) : List Nat :=
  (List.range SIZE).map (fun i =>
    if 2 * i + 1 < hex.length then
      let ch := hex.getD (2 * i) 0
      let cl := hex.getD (2 * i + 1) 0
      (if ch ≥ 97 then ch - 97 + 10 else ch - 48) * 16 +
        (if cl ≥ 97 then cl - 97 + 10 else cl - 48)
    else 0)

/-- `Keys_t`: public key, secret key and seed byte buffers. -/
structure Keys where
  public_key : List Nat
  secret_key : List Nat
  seed : List Nat
  deriving Repr, DecidableEq

/-- `Candidate`: key material, derived address and precomputed scores. -/
structure Candidate where
  keys : Keys
  addr : List Nat
  zero_bits : Nat
  ipv6_zero_blocks : Nat
  deriving Repr, DecidableEq

/-- `Candidate::IsBetter(other, ipv6_nice)`. -/
def Candidate.IsBetter (self other : Candidate) (ipv6_nice : Bool) : Bool :=
  if ipv6_nice then
    decide (self.ipv6_zero_blocks > other.ipv6_zero_blocks) ||
      (decide (self.ipv6_zero_blocks = other.ipv6_zero_blocks) &&
        decide (self.zero_bits > other.zero_bits))
  else
    decide (self.zero_bits > other.zero_bits)

/-- One tick of the coordinator loop body (`WorkerManager::Run`):
drain at most one item, replace the global best iff the popped item
`IsBetter` it; returns the new global best and the `new_best` flag. -/
def coordStep (ipv6_nice : Bool) (global_best : Candidate)
    (popped : Option Candidate) : Candidate × Bool :=
  match popped with
  | none => (global_best, false)
  | some c =>
    if c.IsBetter global_best ipv6_nice then (c, true) else (global_best, false)

/-- The successive values of `global_best_` over a sequence of
coordinator ticks with the given popped items. -/
def coordTrace (ipv6_nice : Bool) (global_best : Candidate) :
    List (Option Candidate) → List Candidate
  | [] => []
  | p :: ps =>
    let g := (coordStep ipv6_nice global_best p).1
    g :: coordTrace ipv6_nice g ps

/-- Little-endian add-one with carry: head byte is the least
significant.  Proof-side mirror of the backwards loop of
`Seed_t::operator++`. -/
def incLE : List Nat → List Nat
  | [] => []
  | b :: rest => if b ≠ 255 then (b + 1) :: rest else 0 :: incLE rest

/-- The byte list read as a little-endian unsigned integer. -/
def valueLE : List Nat → Nat
  | [] => 0
  | b :: rest => b + 256 * valueLE rest

/-- Spec-side: which of the address groups 1..7 are all-zero
(big-endian 16-bit groups; group `i` occupies bytes `2*i`, `2*i+1`).
Group 0 is deliberately absent. -/
def zeroGroupFlags (bytes : List Nat) : List Bool :=
  (List.range' 1 7).map (fun i =>
    decide (bytes.getD (2 * i) 0 = 0 ∧ bytes.getD (2 * i + 1) 0 = 0))

/-- Number of leading `true` flags. -/
def leadCount : List Bool → Nat
  | [] => 0
  | b :: r => if b then 1 + leadCount r else 0

/-- Spec-side: the longest run of consecutive `true` flags, as the
maximum over all suffixes of the leading-`true` count. -/
def longestRun : List Bool → Nat
  | [] => 0
  | b :: r => max (leadCount (b :: r)) (longestRun r)

/-- The run-tracking step of `AddressZeroBlocks`, on the
(max-so-far, current-run) pair, fed one zero-group flag. -/
def runStep (acc : Nat × Nat) (z : Bool) : Nat × Nat :=
  if z then (max acc.1 (acc.2 + 1), acc.2 + 1) else (acc.1, 0)

/-- The longest run reachable from a current-run credit `c`. -/
def auxRun (c : Nat) : List Bool → Nat
  | [] => 0
  | b :: r => if b then max (c + 1) (auxRun (c + 1) r) else auxRun 0 r

/-- The leading-run value with credit `c`, or 0 if the list does not
start with `true`. -/
def headRun (c : Nat) : List Bool → Nat
  | true :: r => c + 1 + leadCount r
  | _ => 0

/-- The public key of the first end-to-end test vector,
`c14f47307e7b1a45df5ba772fe1f36249996df3cd346e192f0e9eff49fa4c506`. -/
def testVectorKey : List Nat :=
  [0xc1, 0x4f, 0x47, 0x30, 0x7e, 0x7b, 0x1a, 0x45,
   0xdf, 0x5b, 0xa7, 0x72, 0xfe, 0x1f, 0x36, 0x24,
   0x99, 0x96, 0xdf, 0x3c, 0xd3, 0x46, 0xe1, 0x92,
   0xf0, 0xe9, 0xef, 0xf4, 0x9f, 0xa4, 0xc5, 0x06]

/-- Sample candidate with one leading zero bit recorded. -/
def sampleCandWinner : Candidate := ⟨⟨[], [], []⟩, [], 1, 0⟩

/-- Sample candidate with no leading zero bits recorded. -/
def sampleCandLoser : Candidate := ⟨⟨[], [], []⟩, [], 0, 0⟩

end Ygg

open Ygg

set_option maxRecDepth 100000

/-- Claim C1: for the public key with hex
`c14f47307e7b1a45df5ba772fe1f36249996df3cd346e192f0e9eff49fa4c506`,
`AddrForKey` followed by `IPv6_Addr::ToString` yields exactly the
string `"200:7d61:719f:309:cb74:4148:b11a:3c1"`. -/
theorem C1_test_vector_address :
    IPv6ToString (AddrForKey testVectorKey) =
      "200:7d61:719f:309:cb74:4148:b11a:3c1" := by
  decide

/-- Claim C3: `Candidate::IsBetter` returns, with `ipv6_nice = false`
(highest-leading-zero-bits mode), true iff `zero_bits` is strictly
greater; with `ipv6_nice = true` (most-zero-address-groups mode), true
iff `ipv6_zero_blocks` is strictly greater or equal with strictly
greater `zero_bits`; and it is irreflexive in either mode. -/
theorem C3_isBetter_characterization :
    ∀ a b : Candidate,
      (a.IsBetter b false = true ↔ a.zero_bits > b.zero_bits) ∧
      (a.IsBetter b true = true ↔
        (a.ipv6_zero_blocks > b.ipv6_zero_blocks ∨
          (a.ipv6_zero_blocks = b.ipv6_zero_blocks ∧
            a.zero_bits > b.zero_bits))) ∧
      (∀ mode : Bool, a.IsBetter a mode = false) := by
  intro a b
  refine ⟨?_, ?_, ?_⟩
  · simp [Candidate.IsBetter]
  · simp [Candidate.IsBetter]
  · intro mode
    cases mode <;> simp [Candidate.IsBetter]

/-- Claim C6 counterexample: a 32-byte key whose first three bytes are
`0x00 0x00 0x20` has 18 leading zero bits, not 26. -/
theorem C6_counterexample :
    ([0x00, 0x00, 0x20] ++ List.replicate 29 0xff : List Nat).length = 32 ∧
    LeadingZeroBits ([0x00, 0x00, 0x20] ++ List.replicate 29 0xff) = 18 ∧
    LeadingZeroBits ([0x00, 0x00, 0x20] ++ List.replicate 29 0xff) ≠ 26 := by
  decide

/-- Claim C6 (amended): for every 32-byte public key whose first four
bytes are `0x00 0x00 0x00 0x20`, `LeadingZeroBits` returns 26. -/
theorem C6_leading_zero_bits_26 :
    ∀ rest : List Nat, rest.length = 28 →
      LeadingZeroBits (0x00 :: 0x00 :: 0x00 :: 0x20 :: rest) = 26 := by
  intro rest _
  rfl

/-- Witness for C6: the amended claim at a concrete key. -/
theorem C6_witness :
    (List.replicate 28 0xff : List Nat).length = 28 ∧
    LeadingZeroBits (0x00 :: 0x00 :: 0x00 :: 0x20 :: List.replicate 28 0xff) =
      26 :=
  ⟨by decide, C6_leading_zero_bits_26 (List.replicate 28 0xff) (by decide)⟩

/-- Claim C9: in the coordinator loop, the global best changes only
when an item was popped and `IsBetter` held; hence along any sequence
of ticks the trace of global-best values is a chain in which every
step either keeps the value or strictly improves it. -/
theorem C9_global_best_monotone :
    ∀ (mode : Bool) (g : Candidate) (inputs : List (Option Candidate)),
      List.Chain (fun a b => b = a ∨ b.IsBetter a mode = true) g
        (coordTrace mode g inputs) ∧
      ∀ p : Option Candidate, (coordStep mode g p).1 ≠ g →
        ∃ c, p = some c ∧ c.IsBetter g mode = true ∧
          (coordStep mode g p).1 = c ∧ (coordStep mode g p).2 = true := by
  intro mode g inputs
  constructor
  · induction inputs generalizing g with
    | nil => exact List.Chain.nil
    | cons p ps ih =>
      refine List.Chain.cons ?_ (ih _)
      cases p with
      | none => exact Or.inl rfl
      | some c =>
        simp only [coordStep]
        split
        · exact Or.inr (by assumption)
        · exact Or.inl rfl
  · intro p hne
    cases p with
    | none => exact absurd rfl hne
    | some c =>
      simp only [coordStep] at hne ⊢
      split at hne
      · exact ⟨c, rfl, by assumption, by simp_all [coordStep], by simp_all [coordStep]⟩
      · exact absurd rfl hne

lemma Ygg.valueLE_lt (l : List Nat) (h : ∀ b ∈ l, b < 256) :
    valueLE l < 256 ^ l.length := by
  induction l with
  | nil => simp [valueLE]
  | cons b rest ih =>
    have hb : b < 256 := h b (by simp)
    have hr : valueLE rest < 256 ^ rest.length :=
      ih (fun x hx => h x (by simp [hx]))
    have h1 : 1 ≤ 256 ^ rest.length := Nat.one_le_pow _ _ (by norm_num)
    have h2 : 256 * valueLE rest ≤ 256 * (256 ^ rest.length - 1) :=
      Nat.mul_le_mul_left _ (by omega)
    simp only [valueLE, List.length_cons, pow_succ]
    omega

lemma Ygg.valueLE_incLE (l : List Nat) (h : ∀ b ∈ l, b < 256) :
    valueLE (incLE l) = (valueLE l + 1) % 256 ^ l.length := by
  induction l with
  | nil => simp [incLE, valueLE]
  | cons b rest ih =>
    have hb : b < 256 := h b (by simp)
    have hr : valueLE rest < 256 ^ rest.length :=
      valueLE_lt rest (fun x hx => h x (by simp [hx]))
    by_cases hbe : b = 255
    · subst hbe
      simp only [incLE, ne_eq, not_true_eq_false, if_false, valueLE,
        List.length_cons, ih (fun x hx => h x (by simp [hx]))]
      rw [pow_succ, Nat.mul_comm (256 ^ rest.length) 256]
      rw [show 255 + 256 * valueLE rest + 1 = 256 * (valueLE rest + 1) by ring]
      rw [Nat.mul_mod_mul_left]
      ring
    · simp only [incLE, ne_eq, hbe, not_false_eq_true, if_true, valueLE,
        List.length_cons]
      rw [Nat.mod_eq_of_lt]
      · ring
      · have h1 : 1 ≤ 256 ^ rest.length := Nat.one_le_pow _ _ (by norm_num)
        have h2 : 256 * valueLE rest ≤ 256 * (256 ^ rest.length - 1) :=
          Nat.mul_le_mul_left _ (by omega)
        rw [pow_succ]
        omega

lemma Ygg.getD_append_lt (l m : List Nat) (i : Nat) (h : i < l.length) :
    (l ++ m).getD i 0 = l.getD i 0 := by
  induction l generalizing i with
  | nil => simp at h
  | cons b rest ih =>
    cases i with
    | zero => simp
    | succ j =>
      simp only [List.cons_append, List.getD_cons_succ]
      exact ih j (by rw [List.length_cons] at h; omega)

lemma Ygg.set_append_lt (l m : List Nat) (i : Nat) (x : Nat)
    (h : i < l.length) : (l ++ m).set i x = l.set i x ++ m := by
  induction l generalizing i with
  | nil => simp at h
  | cons b rest ih =>
    cases i with
    | zero => simp
    | succ j =>
      simp only [List.cons_append, List.set_cons_succ]
      rw [ih j (by rw [List.length_cons] at h; omega)]

lemma Ygg.getD_concat (l : List Nat) (b : Nat) :
    (l ++ [b]).getD l.length 0 = b := by
  induction l with
  | nil => simp
  | cons x rest ih =>
    simp only [List.cons_append, List.length_cons, List.getD_cons_succ]
    exact ih

lemma Ygg.set_concat (l : List Nat) (b x : Nat) :
    (l ++ [b]).set l.length x = l ++ [x] := by
  induction l with
  | nil => simp
  | cons y rest ih =>
    simp only [List.cons_append, List.length_cons, List.set_cons_succ]
    rw [ih]

lemma Ygg.seedIncFrom_append (i : Nat) (l m : List Nat) (h : i ≤ l.length) :
    seedIncFrom (l ++ m) i = seedIncFrom l i ++ m := by
  induction i generalizing l with
  | zero => simp [seedIncFrom]
  | succ j ih =>
    have hj : j < l.length := h
    simp only [seedIncFrom, getD_append_lt l m j hj]
    by_cases hb : l.getD j 0 ≠ 255
    · rw [if_pos hb, if_pos hb, set_append_lt l m j _ hj]
    · rw [if_neg hb, if_neg hb, set_append_lt l m j 0 hj,
        ih (l.set j 0) (by simp only [List.length_set]; omega)]

lemma Ygg.seedIncFrom_eq_incLE (l : List Nat) :
    seedIncFrom l l.length = (incLE l.reverse).reverse := by
  induction l using List.reverseRecOn with
  | nil => simp [seedIncFrom, incLE]
  | append_singleton l b ih =>
    have hrev : (l ++ [b]).reverse = b :: l.reverse := by simp
    rw [show (l ++ [b]).length = l.length + 1 by simp]
    simp only [seedIncFrom, getD_concat l b]
    rw [hrev]
    by_cases hb : b ≠ 255
    · rw [if_pos hb, set_concat l b (b + 1)]
      simp only [incLE]
      rw [if_pos hb, List.reverse_cons, List.reverse_reverse]
    · rw [if_neg hb, set_concat l b 0,
        seedIncFrom_append l.length l [0] (Nat.le_refl _), ih]
      simp only [incLE]
      rw [if_neg hb, List.reverse_cons]

lemma Ygg.valueLE_concat (l : List Nat) (b : Nat) :
    valueLE (l ++ [b]) = valueLE l + b * 256 ^ l.length := by
  induction l with
  | nil => simp [valueLE]
  | cons x rest ih =>
    rw [show (x :: rest) ++ [b] = x :: (rest ++ [b]) from rfl]
    simp only [valueLE, ih, List.length_cons, pow_succ]
    ring

lemma Ygg.valueBE_eq_valueLE_reverse (l : List Nat) :
    valueBE l = valueLE l.reverse := by
  suffices h : ∀ (l : List Nat) (acc : Nat),
      l.foldl (fun a b => a * 256 + b) acc =
        acc * 256 ^ l.length + valueLE l.reverse by
    simpa [valueBE] using h l 0
  intro l
  induction l with
  | nil => simp [valueLE]
  | cons b rest ih =>
    intro acc
    simp only [List.foldl_cons, ih, List.reverse_cons, valueLE_concat,
      List.length_reverse, List.length_cons, pow_succ]
    ring

/-- Claim C4: `Seed_t::operator++` maps a 32-byte seed to the
big-endian representation of its value plus one, modulo `2 ^ 256`. -/
theorem C4_seed_increment (bs : List Nat) (h1 : bs.length = 32)
    (h2 : ∀ b ∈ bs, b < 256) :
    valueBE (seedIncrement bs) = (valueBE bs + 1) % 2 ^ 256 := by
  have h2r : ∀ b ∈ bs.reverse, b < 256 := by
    intro b hb
    exact h2 b (List.mem_reverse.mp hb)
  have key : valueBE (seedIncrement bs) =
      (valueBE bs + 1) % 256 ^ bs.length := by
    rw [seedIncrement, seedIncFrom_eq_incLE, valueBE_eq_valueLE_reverse,
      List.reverse_reverse, valueLE_incLE bs.reverse h2r,
      valueBE_eq_valueLE_reverse, List.length_reverse]
  rw [key, h1]
  norm_num

/-- Witness for C4: incrementing the all-`0xFF` seed wraps to zero. -/
theorem C4_witness :
    seedIncrement (List.replicate 32 0xff) = List.replicate 32 0 ∧
    valueBE (seedIncrement (List.replicate 32 0xff)) =
      (valueBE (List.replicate 32 0xff) + 1) % 2 ^ 256 :=
  ⟨by decide,
    C4_seed_increment (List.replicate 32 0xff) (by decide) (by decide)⟩

lemma Ygg.foldl_runStep (l : List Bool) :
    ∀ m c, (l.foldl runStep (m, c)).1 = max m (auxRun c l) := by
  induction l with
  | nil => intro m c; simp [auxRun]
  | cons b r ih =>
    intro m c
    cases b with
    | true =>
      rw [List.foldl_cons, show runStep (m, c) true = (max m (c + 1), c + 1)
        from rfl, ih, show auxRun c (true :: r) =
          max (c + 1) (auxRun (c + 1) r) from rfl]
      omega
    | false =>
      rw [List.foldl_cons, show runStep (m, c) false = (m, 0) from rfl, ih,
        show auxRun c (false :: r) = auxRun 0 r from rfl]

lemma Ygg.headRun_zero (r : List Bool) : headRun 0 r = leadCount r := by
  cases r with
  | nil => rfl
  | cons b r' =>
    cases b with
    | true => simp [headRun, leadCount]
    | false => simp [headRun, leadCount]

lemma Ygg.leadCount_le_longestRun (r : List Bool) :
    leadCount r ≤ longestRun r := by
  cases r with
  | nil => exact Nat.le_refl 0
  | cons b r' => exact le_max_left _ _

lemma Ygg.auxRun_eq (l : List Bool) :
    ∀ c, auxRun c l = max (headRun c l) (longestRun l) := by
  induction l with
  | nil => intro c; simp [auxRun, headRun, longestRun]
  | cons b r ih =>
    intro c
    cases b with
    | false =>
      rw [show auxRun c (false :: r) = auxRun 0 r from rfl, ih 0,
        headRun_zero, show headRun c (false :: r) = 0 from rfl,
        show longestRun (false :: r) =
          max (leadCount (false :: r)) (longestRun r) from rfl,
        show leadCount (false :: r) = 0 from rfl]
      have h2 := leadCount_le_longestRun r
      omega
    | true =>
      rw [show auxRun c (true :: r) = max (c + 1) (auxRun (c + 1) r) from rfl,
        ih (c + 1),
        show headRun c (true :: r) = c + 1 + leadCount r from rfl,
        show longestRun (true :: r) =
          max (leadCount (true :: r)) (longestRun r) from rfl,
        show leadCount (true :: r) = 1 + leadCount r from rfl]
      cases r with
      | nil =>
        rw [show headRun (c + 1) ([] : List Bool) = 0 from rfl,
          show leadCount ([] : List Bool) = 0 from rfl,
          show longestRun ([] : List Bool) = 0 from rfl]
        omega
      | cons b' r' =>
        cases b' with
        | true =>
          rw [show headRun (c + 1) (true :: r') = c + 1 + 1 + leadCount r'
            from rfl, show leadCount (true :: r') = 1 + leadCount r' from rfl]
          omega
        | false =>
          rw [show headRun (c + 1) (false :: r') = 0 from rfl,
            show leadCount (false :: r') = 0 from rfl]
          omega

/-- Claim C5: `AddressZeroBlocks` returns the length of the longest
run of consecutive all-zero 16-bit groups among groups 1..7, and the
value of the first two bytes (group 0) never affects the result. -/
theorem C5_address_zero_blocks :
    (∀ bytes : List Nat,
      AddressZeroBlocks bytes = longestRun (zeroGroupFlags bytes)) ∧
    (∀ b0 b1 b0' b1' : Nat, ∀ rest : List Nat,
      AddressZeroBlocks (b0 :: b1 :: rest) =
        AddressZeroBlocks (b0' :: b1' :: rest)) := by
  constructor
  · intro bytes
    have h1 : AddressZeroBlocks bytes =
        ((zeroGroupFlags bytes).foldl runStep (0, 0)).1 := by
      simp only [AddressZeroBlocks, zeroGroupFlags, List.foldl_map, runStep,
        decide_eq_true_eq]
    rw [h1, foldl_runStep, auxRun_eq, headRun_zero]
    have h2 := leadCount_le_longestRun (zeroGroupFlags bytes)
    omega
  · intro b0 b1 b0' b1' rest
    rfl

lemma Ygg.bytesToHex_length (b : List Nat) :
    (BytesToHex b).length = 2 * b.length := by
  induction b with
  | nil => rfl
  | cons x rest ih =>
    simp only [BytesToHex, List.length_cons, ih]
    omega

lemma Ygg.bytesToHex_getD (b : List Nat) : ∀ i < b.length,
    (BytesToHex b).getD (2 * i) 0 =
      hexCharsTable.getD (b.getD i 0 / 16) 0 ∧
    (BytesToHex b).getD (2 * i + 1) 0 =
      hexCharsTable.getD (b.getD i 0 % 16) 0 := by
  induction b with
  | nil => intro i hi; simp at hi
  | cons x rest ih =>
    intro i hi
    cases i with
    | zero => exact ⟨rfl, rfl⟩
    | succ j =>
      rw [show 2 * (j + 1) = (2 * j + 1) + 1 by ring]
      simp only [BytesToHex, List.getD_cons_succ]
      exact ih j (by rw [List.length_cons] at hi; omega)

lemma Ygg.nibble_decode : ∀ v < 256,
    (if hexCharsTable.getD (v / 16) 0 ≥ 97 then
        hexCharsTable.getD (v / 16) 0 - 97 + 10
      else hexCharsTable.getD (v / 16) 0 - 48) * 16 +
      (if hexCharsTable.getD (v % 16) 0 ≥ 97 then
        hexCharsTable.getD (v % 16) 0 - 97 + 10
      else hexCharsTable.getD (v % 16) 0 - 48) = v := by
  decide

/-- Claim C7: decoding the hex encoding reproduces the input byte
array exactly, for arrays of length 0, 1, 7, 32 or 64. -/
theorem C7_hex_round_trip (b : List Nat)
    (_hlen : b.length = 0 ∨ b.length = 1 ∨ b.length = 7 ∨
      b.length = 32 ∨ b.length = 64)
    (hb : ∀ x ∈ b, x < 256) :
    HexToBytes b.length (BytesToHex b) = b := by
  apply List.ext_getElem
  · simp [HexToBytes]
  · intro i h1 h2
    have hib : i < b.length := h2
    simp only [HexToBytes, List.getElem_map, List.getElem_range]
    rw [if_pos (by rw [bytesToHex_length]; omega)]
    rw [(bytesToHex_getD b i hib).1, (bytesToHex_getD b i hib).2]
    have hv : b.getD i 0 < 256 := by
      rw [List.getD_eq_getElem b 0 hib]
      exact hb _ (List.getElem_mem hib)
    rw [nibble_decode (b.getD i 0) hv, List.getD_eq_getElem b 0 hib]

/-- Witness for C7: the round trip at the 7-byte test vector. -/
theorem C7_witness :
    HexToBytes ([0x12, 0x34, 0x56, 0x78, 0x90, 0xab, 0xcd] : List Nat).length
      (BytesToHex [0x12, 0x34, 0x56, 0x78, 0x90, 0xab, 0xcd]) =
      [0x12, 0x34, 0x56, 0x78, 0x90, 0xab, 0xcd] :=
  C7_hex_round_trip [0x12, 0x34, 0x56, 0x78, 0x90, 0xab, 0xcd]
    (by decide) (by decide)

lemma Ygg.testBit_invByte : ∀ x < 256, ∀ j < 8,
    (255 - x).testBit j = !(x.testBit j) := by
  decide

lemma Ygg.getD_map_invByte (bs : List Nat) :
    ∀ i, i < bs.length →
      (bs.map invByte).getD i 0 = invByte (bs.getD i 0) := by
  induction bs with
  | nil => intro i hi; simp at hi
  | cons b rest ih =>
    intro i hi
    cases i with
    | zero => simp
    | succ j =>
      simp only [List.map_cons, List.getD_cons_succ]
      exact ih j (by rw [List.length_cons] at hi; omega)

lemma Ygg.testBit_invByte_nat (b j : Nat) (hj : j < 8) :
    (invByte b).testBit j = !(b.testBit j) := by
  have h3 : (b % 256).testBit j = b.testBit j := by
    rw [show (256 : Nat) = 2 ^ 8 from rfl, Nat.testBit_mod_two_pow]
    simp [hj]
  rw [show invByte b = 255 - b % 256 from rfl,
    testBit_invByte (b % 256) (Nat.mod_lt b (by norm_num)) j hj, h3]

lemma Ygg.bitAt_map_inv (bs : List Nat) (i : Nat) (h : i / 8 < bs.length) :
    bitAt (bs.map invByte) i = 1 - bitAt bs i := by
  unfold bitAt
  rw [getD_map_invByte bs (i / 8) h, testBit_invByte_nat _ _ (by omega)]
  cases hb : (bs.getD (i / 8) 0).testBit (7 - i % 8) <;> simp

lemma Ygg.invBits_getD (pk : List Nat) (i : Nat) (h : i < 8 * pk.length) :
    (invBits pk).getD i 0 = bitAt (pk.map invByte) i := by
  unfold invBits
  rw [List.getD_eq_getElem _ 0 (by simpa using h), List.getElem_map,
    List.getElem_range]

lemma Ygg.invBits_length (pk : List Nat) :
    (invBits pk).length = 8 * pk.length := by
  simp [invBits]

lemma Ygg.invBits_le_one (pk : List Nat) : ∀ x ∈ invBits pk, x ≤ 1 := by
  intro x hx
  obtain ⟨idx, -, rfl⟩ := List.mem_map.mp hx
  unfold bitAt
  split <;> omega

lemma Ygg.bitstream_eq : ∀ bs : List Nat,
    (List.range (8 * bs.length)).map (bitAt bs) = bytesBits bs := by
  intro bs
  induction bs with
  | nil => rfl
  | cons b rest ih =>
    rw [show (8 * (b :: rest).length) = 8 + 8 * rest.length by
      simp [List.length_cons]; ring]
    rw [List.range_add, List.map_append, List.map_map]
    have h1 : (List.range 8).map (bitAt (b :: rest)) = byteBits8 b := by
      apply List.map_congr_left
      intro idx hidx
      have h8 : idx < 8 := List.mem_range.mp hidx
      unfold bitAt
      rw [Nat.div_eq_of_lt h8, Nat.mod_eq_of_lt h8]
      rfl
    have h2 : (List.range (8 * rest.length)).map (bitAt (b :: rest) ∘
        (fun i => 8 + i)) = (List.range (8 * rest.length)).map (bitAt rest) := by
      apply List.map_congr_left
      intro i _
      show bitAt (b :: rest) (8 + i) = bitAt rest i
      unfold bitAt
      rw [show (8 + i) / 8 = i / 8 + 1 by omega,
        show (8 + i) % 8 = i % 8 by omega]
      rfl
    rw [h1, h2, ih]
    rfl

lemma Ygg.invBits_eq_bytesBits (pk : List Nat) :
    invBits pk = bytesBits (pk.map invByte) := by
  unfold invBits
  rw [show 8 * pk.length = 8 * (pk.map invByte).length by simp]
  exact bitstream_eq (pk.map invByte)

lemma Ygg.takeWhile_length_le_of_zero :
    ∀ (l : List Nat) (i : Nat), i < l.length → l.getD i 0 = 0 →
      (l.takeWhile isOne).length ≤ i := by
  intro l
  induction l with
  | nil => intro i hi; simp at hi
  | cons x rest ih =>
    intro i hi h0
    cases i with
    | zero =>
      simp only [List.getD_cons_zero] at h0
      subst h0
      rw [List.takeWhile_cons_of_neg (by decide)]
      simp
    | succ j =>
      by_cases hx : isOne x = true
      · rw [List.takeWhile_cons_of_pos hx, List.length_cons]
        have := ih j (by rw [List.length_cons] at hi; omega)
          (by simpa using h0)
        omega
      · rw [List.takeWhile_cons_of_neg (by simpa using hx)]
        simp

lemma Ygg.dropWhile_head_false :
    ∀ (l : List Nat) (p : Nat → Bool) (d0 : Nat) (dtail : List Nat),
      l.dropWhile p = d0 :: dtail → p d0 = false := by
  intro l
  induction l with
  | nil => intro p d0 dtail h; simp [List.dropWhile] at h
  | cons x rest ih =>
    intro p d0 dtail h
    by_cases hx : p x = true
    · rw [List.dropWhile_cons_of_pos hx] at h
      exact ih p d0 dtail h
    · rw [List.dropWhile_cons_of_neg (by simpa using hx)] at h
      cases h
      simpa using hx

lemma Ygg.getD_append_len (l m : List Nat) (d : Nat) :
    (l ++ m).getD l.length d = m.getD 0 d := by
  induction l with
  | nil => rfl
  | cons x rest ih =>
    simp only [List.cons_append, List.length_cons, List.getD_cons_succ]
    exact ih

lemma Ygg.addr_phase1 :
    ∀ (l : List Nat) (o : Nat) (t : List Nat) (a : Bool),
      (∀ x ∈ l, x ≤ 1) →
      o + (l.takeWhile isOne).length ≤ 255 →
      List.foldl addrStep ⟨false, o, 0, 0, t, a⟩ l =
        List.foldl addrStep
          ⟨false, o + (l.takeWhile isOne).length, 0, 0, t, a⟩
          (l.dropWhile isOne) := by
  intro l
  induction l with
  | nil => intro o t a _ _; simp
  | cons x rest ih =>
    intro o t a hle hbound
    have hx : x ≤ 1 := hle x (by simp)
    by_cases hx1 : x = 1
    · subst hx1
      rw [List.takeWhile_cons_of_pos (by decide)] at hbound ⊢
      rw [List.dropWhile_cons_of_pos (by decide)]
      rw [List.length_cons] at hbound ⊢
      have honemod : (o + 1) % 256 = o + 1 := Nat.mod_eq_of_lt (by omega)
      have hstep : addrStep ⟨false, o, 0, 0, t, a⟩ 1 =
          ⟨false, o + 1, 0, 0, t, a⟩ := by
        simp [addrStep, honemod]
      rw [List.foldl_cons, hstep,
        ih (o + 1) t a (fun y hy => hle y (by simp [hy])) (by omega),
        show o + ((rest.takeWhile isOne).length + 1) =
          o + 1 + (rest.takeWhile isOne).length by ring]
    · have hx0 : x = 0 := by omega
      subst hx0
      rw [List.takeWhile_cons_of_neg (by decide),
        List.dropWhile_cons_of_neg (by decide)]
      simp

lemma Ygg.addr_phase2 :
    ∀ (l : List Nat) (o b n : Nat) (t : List Nat) (a : Bool),
      (∀ x ∈ l, x ≤ 1) → b < 2 ^ n → n < 8 →
      (List.foldl addrStep ⟨true, o, b, n, t, a⟩ l).temp =
          t ++ packAux b n l ∧
        (List.foldl addrStep ⟨true, o, b, n, t, a⟩ l).done = true ∧
        (List.foldl addrStep ⟨true, o, b, n, t, a⟩ l).ones = o ∧
        (List.foldl addrStep ⟨true, o, b, n, t, a⟩ l).assertOk = a := by
  intro l
  induction l with
  | nil => intro o b n t a _ _ _; simp [packAux]
  | cons bit rest ih =>
    intro o b n t a hle hb hn
    have hbit : bit ≤ 1 := hle bit (by simp)
    have hpow : 2 ^ n ≤ 128 := by
      calc 2 ^ n ≤ 2 ^ 7 := Nat.pow_le_pow_right (by norm_num) (by omega)
        _ = 128 := by norm_num
    have hmod : (b * 2 + bit) % 256 = b * 2 + bit :=
      Nat.mod_eq_of_lt (by omega)
    by_cases hn8 : n + 1 = 8
    · have hstep : addrStep ⟨true, o, b, n, t, a⟩ bit =
          ⟨true, o, 0, 0, t ++ [b * 2 + bit], a⟩ := by
        simp [addrStep, hmod, hn8]
      have hpack : packAux b n (bit :: rest) =
          (b * 2 + bit) :: packAux 0 0 rest := by
        show (if n + 1 = 8 then (b * 2 + bit) :: packAux 0 0 rest
          else packAux (b * 2 + bit) (n + 1) rest) = _
        rw [if_pos hn8]
      rw [List.foldl_cons, hstep]
      have := ih o 0 0 (t ++ [b * 2 + bit]) a
        (fun y hy => hle y (by simp [hy])) (by norm_num) (by norm_num)
      refine ⟨?_, this.2⟩
      rw [this.1, List.append_assoc, hpack]
      rfl
    · have hstep : addrStep ⟨true, o, b, n, t, a⟩ bit =
          ⟨true, o, b * 2 + bit, n + 1, t, a⟩ := by
        have hn7 : ¬n = 7 := by omega
        simp [addrStep, hmod, hn7]
      have hpack : packAux b n (bit :: rest) =
          packAux (b * 2 + bit) (n + 1) rest := by
        show (if n + 1 = 8 then (b * 2 + bit) :: packAux 0 0 rest
          else packAux (b * 2 + bit) (n + 1) rest) = _
        rw [if_neg hn8]
      rw [List.foldl_cons, hstep]
      have := ih o (b * 2 + bit) (n + 1) t a
        (fun y hy => hle y (by simp [hy]))
        (by rw [pow_succ]; omega) (by omega)
      refine ⟨?_, this.2⟩
      rw [this.1, hpack]

lemma Ygg.addrFold_char (pk : List Nat) (hlen : pk.length = 32)
    (i : Nat) (hi : i < 128) (hbit : bitAt (pk.map invByte) i = 0) :
    (addrFold pk).temp =
        packAux 0 0 ((invBits pk).drop
          (((invBits pk).takeWhile isOne).length + 1)) ∧
      (addrFold pk).ones = ((invBits pk).takeWhile isOne).length ∧
      (addrFold pk).done = true ∧
      (addrFold pk).assertOk = true ∧
      ((invBits pk).takeWhile isOne).length ≤ 127 := by
  have hlen8 : (invBits pk).length = 256 := by rw [invBits_length, hlen]
  have hle1 : ∀ x ∈ invBits pk, x ≤ 1 := invBits_le_one pk
  have hgd : (invBits pk).getD i 0 = 0 := by
    rw [invBits_getD pk i (by rw [hlen]; omega)]
    exact hbit
  have hk_le : ((invBits pk).takeWhile isOne).length ≤ i :=
    takeWhile_length_le_of_zero (invBits pk) i (by omega) hgd
  have hk127 : ((invBits pk).takeWhile isOne).length ≤ 127 := by omega
  have htwdw := List.takeWhile_append_dropWhile isOne (invBits pk)
  have hdw : (invBits pk).dropWhile isOne =
      (invBits pk).drop ((invBits pk).takeWhile isOne).length := by
    have h := List.drop_left ((invBits pk).takeWhile isOne)
      ((invBits pk).dropWhile isOne)
    rw [htwdw] at h
    exact h.symm
  have hdwlen : ((invBits pk).dropWhile isOne).length =
      256 - ((invBits pk).takeWhile isOne).length := by
    have h2 : ((invBits pk).takeWhile isOne).length +
        ((invBits pk).dropWhile isOne).length = 256 := by
      rw [← List.length_append, htwdw, hlen8]
    omega
  obtain ⟨d0, dtail, hcons⟩ :
      ∃ d0 dtail, (invBits pk).dropWhile isOne = d0 :: dtail := by
    cases hdwx : (invBits pk).dropWhile isOne with
    | nil => rw [hdwx] at hdwlen; simp at hdwlen; omega
    | cons d0 dtail => exact ⟨d0, dtail, rfl⟩
  have hd0f : isOne d0 = false :=
    dropWhile_head_false (invBits pk) isOne d0 dtail hcons
  have hd0mem : d0 ∈ invBits pk := by
    rw [← htwdw, hcons]
    exact List.mem_append_right _ (by simp)
  have hd0 : d0 = 0 := by
    have h1 : ¬d0 = 1 := by
      intro h
      rw [h] at hd0f
      simp [isOne] at hd0f
    have := hle1 d0 hd0mem
    omega
  have hdtailsub : ∀ y ∈ dtail, y ≤ 1 := by
    intro y hy
    apply hle1
    rw [← htwdw, hcons]
    exact List.mem_append_right _ (by simp [hy])
  have hdtail : dtail =
      (invBits pk).drop (((invBits pk).takeWhile isOne).length + 1) := by
    have h1 : (invBits pk).drop ((invBits pk).takeWhile isOne).length =
        d0 :: dtail := by rw [← hdw, hcons]
    have h2 : ((invBits pk).drop
        ((invBits pk).takeWhile isOne).length).drop 1 = dtail := by
      rw [h1]
      simp
    rw [List.drop_drop] at h2
    exact h2.symm
  have hstep0 : addrStep
      ⟨false, ((invBits pk).takeWhile isOne).length, 0, 0, [], true⟩ 0 =
      ⟨true, ((invBits pk).takeWhile isOne).length, 0, 0, [], true⟩ := by
    simp [addrStep, hk127]
  have hfold : addrFold pk = List.foldl addrStep
      ⟨true, ((invBits pk).takeWhile isOne).length, 0, 0, [], true⟩ dtail := by
    show List.foldl addrStep ⟨false, 0, 0, 0, [], true⟩ (invBits pk) = _
    rw [addr_phase1 (invBits pk) 0 [] true hle1 (by omega), hcons, hd0,
      List.foldl_cons, Nat.zero_add, hstep0]
  have hph2 := addr_phase2 dtail ((invBits pk).takeWhile isOne).length 0 0 []
    true hdtailsub (by norm_num) (by norm_num)
  rw [hfold, ← hdtail]
  exact ⟨by rw [hph2.1]; rfl, hph2.2.2.1, hph2.2.1, hph2.2.2.2, hk127⟩

lemma Ygg.byteBits8_length (b : Nat) : (byteBits8 b).length = 8 := by
  simp [byteBits8]

lemma Ygg.clz8_le (b : Nat) : clz8 b ≤ 8 := by
  dsimp only [clz8]
  split_ifs <;> omega

lemma Ygg.perByte_clz8 : ∀ b < 256,
    ((byteBits8 (invByte b)).takeWhile isOne).length = clz8 b ∧
    (clz8 b = 8 ↔ b = 0) := by
  decide

lemma Ygg.takeWhile_append_of_all (l1 l2 : List Nat) (p : Nat → Bool)
    (h : ∀ x ∈ l1, p x = true) :
    (l1 ++ l2).takeWhile p = l1 ++ l2.takeWhile p := by
  induction l1 with
  | nil => simp
  | cons x r ih =>
    rw [List.cons_append, List.takeWhile_cons_of_pos (h x (by simp)),
      ih (fun y hy => h y (by simp [hy])), List.cons_append]

lemma Ygg.takeWhile_append_of_lt (l1 l2 : List Nat) (p : Nat → Bool)
    (h : (l1.takeWhile p).length < l1.length) :
    (l1 ++ l2).takeWhile p = l1.takeWhile p := by
  induction l1 with
  | nil => simp at h
  | cons x r ih =>
    by_cases hx : p x = true
    · rw [List.takeWhile_cons_of_pos hx] at h ⊢
      rw [List.cons_append, List.takeWhile_cons_of_pos hx,
        ih (by rw [List.length_cons, List.length_cons] at h; omega)]
    · rw [List.cons_append, List.takeWhile_cons_of_neg hx,
        List.takeWhile_cons_of_neg hx]

lemma Ygg.lzb_eq_stream (bs : List Nat) (hb : ∀ b ∈ bs, b < 256) :
    LeadingZeroBits bs =
      ((bytesBits (bs.map invByte)).takeWhile isOne).length := by
  induction bs with
  | nil => rfl
  | cons b rest ih =>
    have hblt : b < 256 := hb b (by simp)
    have hsplit : bytesBits ((b :: rest).map invByte) =
        byteBits8 (invByte b) ++ bytesBits (rest.map invByte) := rfl
    rw [hsplit]
    by_cases hb0 : b = 0
    · subst hb0
      have hall : ∀ x ∈ byteBits8 (invByte 0), isOne x = true := by decide
      rw [takeWhile_append_of_all _ _ isOne hall, List.length_append,
        byteBits8_length,
        show LeadingZeroBits (0 :: rest) = 8 + LeadingZeroBits rest from rfl,
        ih (fun y hy => hb y (by simp [hy]))]
    · have hc := perByte_clz8 b hblt
      have hne8 : clz8 b ≠ 8 := fun h => hb0 (hc.2.mp h)
      have hlt : ((byteBits8 (invByte b)).takeWhile isOne).length <
          (byteBits8 (invByte b)).length := by
        have := clz8_le b
        rw [hc.1, byteBits8_length]
        omega
      rw [takeWhile_append_of_lt _ _ isOne hlt, hc.1,
        show LeadingZeroBits (b :: rest) =
          (if clz8 b = 8 then 8 + LeadingZeroBits rest else clz8 b) from rfl,
        if_neg hne8]

lemma Ygg.takeWhile_getD_false :
    ∀ (l : List Nat) (p : Nat → Bool), (l.takeWhile p).length < l.length →
      p (l.getD (l.takeWhile p).length 0) = false := by
  intro l
  induction l with
  | nil => intro p h; simp at h
  | cons x rest ih =>
    intro p h
    by_cases hx : p x = true
    · rw [List.takeWhile_cons_of_pos hx] at h ⊢
      rw [List.length_cons, List.getD_cons_succ]
      exact ih p (by rw [List.length_cons, List.length_cons] at h; omega)
    · rw [List.takeWhile_cons_of_neg hx]
      simp only [List.length_nil, List.getD_cons_zero]
      simpa using hx

/-- Claim C2: for every 32-byte public key with a 1-bit among its
first 128 bits, `AddrForKey` produces exactly the address described
by the specification: byte 0 is `0x02`, byte 1 is the count of
consecutive leading 1-bits of the inverted key, and bytes 2..15 are
the first 14 bytes of the MSB-first packing of the bits after the
first (consumed) 0-bit, zero-padded if fewer. -/
theorem C2_addr_derivation (pk : List Nat) (hlen : pk.length = 32)
    (hbit : ∃ i, i < 128 ∧ bitAt pk i = 1) :
    AddrForKey pk = specAddrForKey pk := by
  obtain ⟨i, hi, hb1⟩ := hbit
  have hinv : bitAt (pk.map invByte) i = 0 := by
    rw [bitAt_map_inv pk i (by rw [hlen]; omega), hb1]
  have hchar := addrFold_char pk hlen i hi hinv
  have hA : AddrForKey pk = 2 :: (addrFold pk).ones ::
      ((addrFold pk).temp.take 14 ++
        List.replicate (14 - ((addrFold pk).temp.take 14).length) 0) := rfl
  have hS : specAddrForKey pk =
      2 :: ((invBits pk).takeWhile isOne).length ::
      ((packAux 0 0 ((invBits pk).drop
          (((invBits pk).takeWhile isOne).length + 1))).take 14 ++
        List.replicate (14 - ((packAux 0 0 ((invBits pk).drop
          (((invBits pk).takeWhile isOne).length + 1))).take 14).length)
          0) := rfl
  rw [hA, hS, hchar.1, hchar.2.1]

/-- Witness for C2: the derivation agreement at the test-vector key. -/
theorem C2_witness : AddrForKey testVectorKey = specAddrForKey testVectorKey :=
  C2_addr_derivation testVectorKey (by decide) ⟨0, by decide⟩

/-- Claim C8: for every 32-byte public key with a 1-bit among its
first 128 bits, the internal check `ones <= 127` of `AddrForKey`
holds when the first 0-bit is found, so the assertion-violation
branch is unreachable. -/
theorem C8_ones_check (pk : List Nat) (hlen : pk.length = 32)
    (hbit : ∃ i, i < 128 ∧ bitAt pk i = 1) :
    (addrFold pk).assertOk = true ∧ (addrFold pk).done = true ∧
      (addrFold pk).ones ≤ 127 := by
  obtain ⟨i, hi, hb1⟩ := hbit
  have hinv : bitAt (pk.map invByte) i = 0 := by
    rw [bitAt_map_inv pk i (by rw [hlen]; omega), hb1]
  have hchar := addrFold_char pk hlen i hi hinv
  refine ⟨hchar.2.2.2.1, hchar.2.2.1, ?_⟩
  rw [hchar.2.1]
  exact hchar.2.2.2.2

/-- Witness for C8: the check holds at the test-vector key. -/
theorem C8_witness :
    (addrFold testVectorKey).assertOk = true ∧
      (addrFold testVectorKey).done = true ∧
      (addrFold testVectorKey).ones ≤ 127 :=
  C8_ones_check testVectorKey (by decide) ⟨0, by decide⟩

/-- Claim C10: for every 32-byte public key with at most 127 leading
zero bits, the derived address has byte 0 equal to `0x02` and byte 1
equal to `LeadingZeroBits` of the key: the `ones` counter coincides
with the scorer. -/
theorem C10_ones_eq_leading_zero_bits (pk : List Nat)
    (hlen : pk.length = 32) (hb : ∀ b ∈ pk, b < 256)
    (hlz : LeadingZeroBits pk ≤ 127) :
    (AddrForKey pk).getD 0 0 = 2 ∧
      (AddrForKey pk).getD 1 0 = LeadingZeroBits pk := by
  have hk : ((invBits pk).takeWhile isOne).length = LeadingZeroBits pk := by
    rw [lzb_eq_stream pk hb, invBits_eq_bytesBits]
  have hlen8 : (invBits pk).length = 256 := by rw [invBits_length, hlen]
  have hlt : ((invBits pk).takeWhile isOne).length < (invBits pk).length := by
    omega
  have hfalse := takeWhile_getD_false (invBits pk) isOne hlt
  have hmem : (invBits pk).getD ((invBits pk).takeWhile isOne).length 0 ∈
      invBits pk := by
    rw [List.getD_eq_getElem (invBits pk) 0 hlt]
    exact List.getElem_mem hlt
  have hle1 := invBits_le_one pk _ hmem
  have hzero : (invBits pk).getD ((invBits pk).takeWhile isOne).length 0
      = 0 := by
    have h1 : ¬(invBits pk).getD ((invBits pk).takeWhile isOne).length 0
        = 1 := by
      intro h
      rw [h] at hfalse
      simp [isOne] at hfalse
    omega
  have hinv : bitAt (pk.map invByte)
      ((invBits pk).takeWhile isOne).length = 0 := by
    rw [← invBits_getD pk _ (by omega)]
    exact hzero
  have hchar := addrFold_char pk hlen ((invBits pk).takeWhile isOne).length
    (by omega) hinv
  have hA : AddrForKey pk = 2 :: (addrFold pk).ones ::
      ((addrFold pk).temp.take 14 ++
        List.replicate (14 - ((addrFold pk).temp.take 14).length) 0) := rfl
  rw [hA]
  exact ⟨rfl, by rw [List.getD_cons_succ, List.getD_cons_zero, hchar.2.1, hk]⟩

/-- Witness for C10: the address bytes at the test-vector key. -/
theorem C10_witness :
    (AddrForKey testVectorKey).getD 0 0 = 2 ∧
      (AddrForKey testVectorKey).getD 1 0 =
        LeadingZeroBits testVectorKey :=
  C10_ones_eq_leading_zero_bits testVectorKey (by decide) (by decide)
    (by decide)

/-- Witness for C9: the coordinator step at concrete candidates. -/
theorem C9_witness :
    ∃ c, (some sampleCandWinner) = some c ∧
      c.IsBetter sampleCandLoser false = true ∧
      (coordStep false sampleCandLoser (some sampleCandWinner)).1 = c ∧
      (coordStep false sampleCandLoser (some sampleCandWinner)).2 = true :=
  (C9_global_best_monotone false sampleCandLoser []).2 (some sampleCandWinner)
    (by decide)
